import Mathlib

/-!
Verification of the gomath exact-number tower (ℕ → ℤ → ℚ).

Shallow embedding of `pkg/numbers` (files `n.go` / `z.go` / `q.go`):
`N` values are the `uint64` magnitude modelled as `Nat`, `Z` values are the
`int64` magnitude modelled as `Int`, and `Q` is the stored numerator and
denominator pair.  Go functions returning several nullable pointers plus an
error are modelled as tuples of `Option`s; functions that can only panic are
modelled with `GoResult`.  Source loops of the form `for { ...; res++ }`
are modelled with an explicit fuel parameter (always instantiated with a
provably sufficient amount); loops that repeat a body a fixed number of
times are modelled by structural recursion on the iteration count.
-/

/-- Error kinds produced with `errors.New` in the source; the constructor
names stand for the literal Go message strings. -/
inductive GoErr where
  /-- Go message: "can.t divide by ZERO" -/
  | divideByZero : GoErr
  deriving DecidableEq

/-- `type Q struct { a int64; b int64 }` — rational numbers as a stored
numerator/denominator pair (q.go). -/
structure Q where
  a : Int
  b : Int
  deriving DecidableEq

/-- Result of calling a Go function that may panic instead of returning. -/
inductive GoResult (α : Type) where
  | ok : α → GoResult α
  | crash : String → GoResult α
  deriving DecidableEq

/-- Whether a `GoResult` is a normal return (no panic happened). -/
def GoResult.isRet {α : Type} : GoResult α → Bool
  | .ok _ => true
  | .crash _ => false

/-- `func (n *N) addOne() *N` — the successor primitive (n.go). -/
def N.addOne (n : Nat) : Nat := n + 1

/-- A loop `for i := 0; i < k; i++ { res = res.addOne() }` run on `res`. -/
def N.addOneIter : Nat → Nat → Nat
  | 0, res => res
  | k + 1, res => N.addOneIter k (N.addOne res)

/-- `func (n *N) Add(arg *N) *N`: start from `n` and `addOne` it
`arg` times (n.go). -/
def N.Add (n arg : Nat) : Nat := N.addOneIter arg n

/-- A loop `for i := 0; i < k; i++ { res = res.Add(n) }` run on `res`. -/
def N.mulIter : Nat → Nat → Nat → Nat
  | 0, _, res => res
  | k + 1, n, res => N.mulIter k n (N.Add res n)

/-- `func (n *N) Multiply(arg *N) *N`: start from `ZERO` and `Add n`
to it `arg` times (n.go). -/
def N.Multiply (n arg : Nat) : Nat := N.mulIter arg n 0

/-- A loop `for i := 0; i < k; i++ { res = res.Multiply(n) }` run on `res`. -/
def N.powIter : Nat → Nat → Nat → Nat
  | 0, _, res => res
  | k + 1, n, res => N.powIter k n (N.Multiply res n)

/-- `func (n *N) Power(arg *N) *N`: start from `NewN("1")` and
`Multiply` by `n`, `arg` times (n.go). -/
def N.Power (n arg : Nat) : Nat := N.powIter arg n 1

/-- The search loop of `N.Subtract`:
`res := ZERO; for { if arg.Add(res) == n { return res }; res = res.addOne() }`,
with an explicit fuel bound (the Go loop has none; fuel `n + 1` is always
sufficient at the call site, see `N.subLoop_spec`). -/
def N.subLoop : Nat → Nat → Nat → Nat → Option Nat
  | 0, _, _, _ => none
  | fuel + 1, n, arg, res =>
    if N.Add arg res = n then some res
    else N.subLoop fuel n arg (N.addOne res)

/-- The value returned by `a.Subtract(b)` when the guard `a < b` fails,
i.e. the search loop started at `ZERO`. -/
def N.subExact (n arg : Nat) : Option Nat := N.subLoop (n + 1) n arg 0

/-- The counting loop of `DefZ`:
`for ; c.value < res.value; c = c.addOne() {}` starting from `c`, with
explicit fuel (`target + 1` is always sufficient, see `N.countUp_eq`). -/
def N.countUp : Nat → Nat → Nat → Nat
  | 0, c, _ => c
  | fuel + 1, c, target =>
    if c < target then N.countUp fuel (N.addOne c) target else c

/-- `func DefZ(a *N, b *N) *Z` (z.go): definition of ℤ by subtraction of
two ℕ values.  When `a ≥ b` the call `a.Subtract(b)` takes the search
branch (here `N.subExact`); otherwise the difference `b - a` is recomputed
into a fresh counter and negated. -/
def DefZ (a b : Nat) : Int :=
  if b ≤ a then
    -- res, _ := a.Subtract(b)
    ((N.subExact a b).getD 0 : Nat)
  else
    -- res, _ := b.Subtract(a); count c up to res; return -c
    -((N.countUp (b + 1) 0 ((N.subExact b a).getD 0) : Nat) : Int)

/-- `func (n *N) Subtract(arg *N) (*N, *Z)` (q.go lines 488-503): exact
result in ℕ, or promotion to ℤ through `DefZ` when `n < arg`. -/
def N.Subtract (n arg : Nat) : Option Nat × Option Int :=
  if n < arg then (none, some (DefZ n arg))
  else (N.subExact n arg, none)

/-- `func DefQ(a *Z, b *Z) *Q` (q.go lines 48-50): definition of ℚ by
division of two ℤ values — the pair is stored as-is, without reduction. -/
def DefQ (a b : Int) : Q := ⟨a, b⟩

/-- The shared search loop of `N.Divide` and `N.DivideR`:
`res := ZERO;`
`for { if arg.Multiply(res) == n { exact }; if arg.Multiply(res) > n { break }; res++ }`
with explicit fuel (fuel `n + 2` is always sufficient, see `N.divLoop_spec`).
`Sum.inl res` is the exact return, `Sum.inr res` the break position. -/
def N.divLoop : Nat → Nat → Nat → Nat → Option (Nat ⊕ Nat)
  | 0, _, _, _ => none
  | fuel + 1, n, arg, res =>
    if N.Multiply arg res = n then some (Sum.inl res)
    else if n < N.Multiply arg res then some (Sum.inr res)
    else N.divLoop fuel n arg (N.addOne res)

/-- `func (n *N) Divide(arg *N) (*N, *Q, error)` (q.go lines 506-524):
exact ℕ quotient, or promotion to ℚ via `DefQ`, or `DivideByZero`. -/
def N.Divide (n arg : Nat) : Option Nat × Option Q × Option GoErr :=
  if arg = 0 then (none, none, some GoErr.divideByZero)
  else
    match N.divLoop (n + 2) n arg 0 with
    | some (Sum.inl res) => (some res, none, none)
    | some (Sum.inr _) => (none, some (DefQ (n : Int) (arg : Int)), none)
    | none => (none, none, none)  -- fuel exhaustion: unreachable (N.divLoop_spec)

/-- `func (n *N) DivideR(arg *N) (*N, *N, error)` (q.go lines 527-546):
Euclidean division with remainder.  On break the source computes
`res1, _ := res.Subtract(NewN("1"))` and
`rem, _ := n.Subtract(res1.Multiply(arg))`; both subtractions succeed at
this point, the `none` fallbacks are unreachable. -/
def N.DivideR (n arg : Nat) : Option Nat × Option Nat × Option GoErr :=
  if arg = 0 then (none, none, some GoErr.divideByZero)
  else
    match N.divLoop (n + 2) n arg 0 with
    | some (Sum.inl res) => (some res, some 0, none)
    | some (Sum.inr res) =>
      match (N.Subtract res 1).1 with
      | some res1 =>
        match (N.Subtract n (N.Multiply res1 arg)).1 with
        | some rem => (some res1, some rem, none)
        | none => (none, none, none)
      | none => (none, none, none)
    | none => (none, none, none)

-- ## Characterization of the ℕ layer

theorem N.addOneIter_eq (k res : Nat) : N.addOneIter k res = res + k := by
  induction k generalizing res with
  | zero => rfl
  | succ k ih => simp [N.addOneIter, N.addOne, ih]; omega

theorem N.Add_eq (n arg : Nat) : N.Add n arg = n + arg := by
  simp [N.Add, N.addOneIter_eq]

theorem N.mulIter_eq (k n res : Nat) : N.mulIter k n res = res + n * k := by
  induction k generalizing res with
  | zero => simp [N.mulIter]
  | succ k ih => simp [N.mulIter, N.Add_eq, ih]; ring

theorem N.Multiply_eq (n arg : Nat) : N.Multiply n arg = n * arg := by
  simp [N.Multiply, N.mulIter_eq]

theorem N.powIter_eq (k n res : Nat) : N.powIter k n res = res * n ^ k := by
  induction k generalizing res with
  | zero => simp [N.powIter]
  | succ k ih => simp [N.powIter, N.Multiply_eq, ih]; ring

theorem N.Power_eq (n arg : Nat) : N.Power n arg = n ^ arg := by
  simp [N.Power, N.powIter_eq]

theorem N.subLoop_spec (fuel n arg res : Nat) (hle : arg + res ≤ n)
    (hfuel : n - arg - res < fuel) :
    N.subLoop fuel n arg res = some (n - arg) := by
  induction fuel generalizing res with
  | zero => omega
  | succ fuel ih =>
    rw [N.subLoop]
    by_cases h : N.Add arg res = n
    · rw [if_pos h]
      rw [N.Add_eq] at h
      congr 1
      omega
    · rw [if_neg h]
      rw [N.Add_eq] at h
      exact ih (res + 1) (by omega) (by omega)

theorem N.subExact_spec (n arg : Nat) (h : arg ≤ n) :
    N.subExact n arg = some (n - arg) :=
  N.subLoop_spec (n + 1) n arg 0 (by omega) (by omega)

theorem N.countUp_eq (fuel c target : Nat) (h : c ≤ target)
    (hfuel : target - c < fuel) : N.countUp fuel c target = target := by
  induction fuel generalizing c with
  | zero => omega
  | succ fuel ih =>
    rw [N.countUp]
    by_cases h' : c < target
    · rw [if_pos h']
      exact ih (N.addOne c) (by simp [N.addOne]; omega) (by simp [N.addOne]; omega)
    · rw [if_neg h']; omega

theorem DefZ_eq (a b : Nat) : DefZ a b = (a : Int) - (b : Int) := by
  unfold DefZ
  by_cases h : b ≤ a
  · rw [if_pos h, N.subExact_spec a b h]
    simp
    omega
  · rw [if_neg h, N.subExact_spec b a (by omega)]
    simp only [Option.getD_some]
    rw [N.countUp_eq (b + 1) 0 (b - a) (by omega) (by omega)]
    omega

theorem N.Subtract_le (n arg : Nat) (h : arg ≤ n) :
    N.Subtract n arg = (some (n - arg), none) := by
  unfold N.Subtract
  rw [if_neg (by omega), N.subExact_spec n arg h]

theorem N.Subtract_lt (n arg : Nat) (h : n < arg) :
    N.Subtract n arg = (none, some ((n : Int) - (arg : Int))) := by
  unfold N.Subtract
  rw [if_pos h, DefZ_eq]

theorem N.divLoop_spec (fuel n b res : Nat) (hb : 0 < b)
    (hres : res ≤ n / b ∨ (res = n / b + 1 ∧ ¬ b ∣ n))
    (hfuel : n / b + 2 - res ≤ fuel) :
    N.divLoop fuel n b res =
      if b ∣ n then some (Sum.inl (n / b)) else some (Sum.inr (n / b + 1)) := by
  induction fuel generalizing res with
  | zero => omega
  | succ fuel ih =>
    rw [N.divLoop]
    by_cases heq : N.Multiply b res = n
    · rw [if_pos heq]
      rw [N.Multiply_eq] at heq
      have hdvd : b ∣ n := ⟨res, heq.symm⟩
      have : n / b = res := by rw [← heq, Nat.mul_div_cancel_left res hb]
      rw [if_pos hdvd, this]
    · rw [if_neg heq, N.Multiply_eq] at *
      by_cases hgt : n < b * res
      · rw [if_pos hgt]
        have h1 : ¬ res ≤ n / b := by
          intro hle
          have : b * res ≤ b * (n / b) := Nat.mul_le_mul_left b hle
          have h2 : b * (n / b) ≤ n := Nat.mul_div_le n b
          omega
        rcases hres with h | ⟨h, hnd⟩
        · omega
        · rw [if_neg hnd, h]
      · rw [if_neg hgt]
        have hle : b * res ≤ n := by omega
        have hnext : res + 1 ≤ n / b ∨ (res + 1 = n / b + 1 ∧ ¬ b ∣ n) := by
          rcases hres with h | ⟨h, hnd⟩
          · rcases Nat.lt_or_ge res (n / b) with h' | h'
            · exact Or.inl (by omega)
            · have hres_eq : res = n / b := by omega
              refine Or.inr ⟨by omega, ?_⟩
              intro hdvd
              obtain ⟨k, hk⟩ := hdvd
              have hk2 : n / b = k := by rw [hk, Nat.mul_div_cancel_left k hb]
              rw [hres_eq, hk2] at heq
              omega
          · exfalso
            have hmod := Nat.div_add_mod n b
            have hmlt : n % b < b := Nat.mod_lt n hb
            have : b * res = b * (n / b) + b := by rw [h]; ring
            have hnd' : n % b ≠ 0 := by
              intro h0
              exact hnd (Nat.dvd_iff_mod_eq_zero.mpr h0)
            omega
        exact ih (res + 1) hnext (by omega)

theorem N.Divide_zero (n : Nat) :
    N.Divide n 0 = (none, none, some GoErr.divideByZero) := by
  simp [N.Divide]

theorem N.DivideR_zero (n : Nat) :
    N.DivideR n 0 = (none, none, some GoErr.divideByZero) := by
  simp [N.DivideR]

theorem N.Divide_exact (n b : Nat) (hb : b ≠ 0) (hdvd : b ∣ n) :
    N.Divide n b = (some (n / b), none, none) := by
  unfold N.Divide
  rw [if_neg hb]
  rw [N.divLoop_spec (n + 2) n b 0 (by omega) (Or.inl (Nat.zero_le _))
      (by have := Nat.div_le_self n b; omega)]
  rw [if_pos hdvd]

theorem N.Divide_inexact (n b : Nat) (hb : b ≠ 0) (hdvd : ¬ b ∣ n) :
    N.Divide n b = (none, some (DefQ (n : Int) (b : Int)), none) := by
  unfold N.Divide
  rw [if_neg hb]
  rw [N.divLoop_spec (n + 2) n b 0 (by omega) (Or.inl (Nat.zero_le _))
      (by have := Nat.div_le_self n b; omega)]
  rw [if_neg hdvd]

theorem N.DivideR_spec (n b : Nat) (hb : b ≠ 0) :
    N.DivideR n b = (some (n / b), some (n % b), none) := by
  unfold N.DivideR
  rw [if_neg hb]
  rw [N.divLoop_spec (n + 2) n b 0 (by omega) (Or.inl (Nat.zero_le _))
      (by have := Nat.div_le_self n b; omega)]
  by_cases hdvd : b ∣ n
  · rw [if_pos hdvd]
    have h0 : n % b = 0 := Nat.dvd_iff_mod_eq_zero.mp hdvd
    rw [h0]
  · rw [if_neg hdvd]
    have hs1 : N.Subtract (n / b + 1) 1 = (some (n / b), none) := by
      rw [N.Subtract_le (n / b + 1) 1 (Nat.le_add_left 1 _)]
      simp
    have hmul : N.Multiply (n / b) b = n / b * b := N.Multiply_eq _ _
    have hle : n / b * b ≤ n := Nat.div_mul_le_self n b
    have hmod := Nat.div_add_mod n b
    have hsub : n - n / b * b = n % b := by
      have hc : b * (n / b) = n / b * b := Nat.mul_comm b (n / b)
      omega
    have hs2 : N.Subtract n (N.Multiply (n / b) b) = (some (n % b), none) := by
      rw [hmul, N.Subtract_le n (n / b * b) hle, hsub]
    simp [hs1, hs2]

-- ## The ℤ layer (z.go)

/-- `func (z *Z) Multiply(arg *Z) *Z` (z.go): four sign cases, each
delegating the magnitudes to `N.Multiply` (Go converts with `uint64(·)`
after making the operand non-negative, modelled by `Int.toNat`). -/
def Z.Multiply (z arg : Int) : Int :=
  if 0 ≤ z ∧ 0 ≤ arg then
    ((N.Multiply z.toNat arg.toNat : Nat) : Int)
  else if 0 ≤ z ∧ arg < 0 then
    -((N.Multiply z.toNat (-arg).toNat : Nat) : Int)
  else if z < 0 ∧ 0 ≤ arg then
    -((N.Multiply (-z).toNat arg.toNat : Nat) : Int)
  else
    ((N.Multiply (-z).toNat (-arg).toNat : Nat) : Int)

/-- The loop of `Z.Power` for a negative base:
`res := NewZ("1"); for i := 0; i < arg; i++ { res = res.Multiply(z) }`. -/
def Z.powLoop (z : Int) : Nat → Int
  | 0 => 1
  | k + 1 => Z.Multiply (Z.powLoop z k) z

/-- `func (z *Z) Divide(arg *Z) (*Z, *Q, error)` (z.go lines 198-243):
normalize both operands to non-negative by recursing with the signs
flipped, delegate to `N.Divide`, then restore the sign on the ℤ result or
on the numerator of a promoted ℚ.  The Go recursion reaches the
non-negative base case after at most one flip per operand, so recursion
depth 2 always suffices; it is made structural with a fuel parameter
(the fuel-exhaustion answer is unreachable, see `Z.Divide_char`). -/
def Z.divideRec : Nat → Int → Int → Option Int × Option Q × Option GoErr
  | 0, _, _ => (none, none, none)
  | fuel + 1, z, arg =>
    if 0 ≤ z ∧ 0 ≤ arg then
      match N.Divide z.toNat arg.toNat with
      | (some zres, _, _) => (some (zres : Int), none, none)
      | (none, some qres, _) => (none, some qres, none)
      | (none, none, e) => (none, none, e)
    else if 0 ≤ z ∧ arg < 0 then
      match Z.divideRec fuel z (-arg) with
      | (some zres, _, _) => (some (-zres), none, none)
      | (none, some qres, _) => (none, some ⟨-qres.a, qres.b⟩, none)
      | (none, none, e) => (none, none, e)
    else if z < 0 ∧ 0 ≤ arg then
      match Z.divideRec fuel (-z) arg with
      | (some zres, _, _) => (some (-zres), none, none)
      | (none, some qres, _) => (none, some ⟨-qres.a, qres.b⟩, none)
      | (none, none, e) => (none, none, e)
    else
      match Z.divideRec fuel (-z) (-arg) with
      | (some zres, _, _) => (some zres, none, none)
      | (none, some qres, _) => (none, some qres, none)
      | (none, none, e) => (none, none, e)

/-- `z.Divide(arg)` — the sign-case recursion entered with enough fuel. -/
def Z.Divide (z arg : Int) : Option Int × Option Q × Option GoErr :=
  Z.divideRec 2 z arg

/-- `func (z *Z) Power(arg *Z) (*Z, *Q, error)` (z.go lines 146-164):
non-negative base and exponent delegate to `N.Power`; a negative base with
non-negative exponent runs the `Z.Multiply` loop; a negative exponent
computes `a^|b|` recursively and delegates to `(1).Divide(a^|b|)`, which
may promote to ℚ.  The single recursive call has a non-negative exponent,
so recursion depth 2 always suffices; it is made structural with a fuel
parameter.  The recursive call always yields a non-`nil` ℤ value, so the
`none` fallback, a nil dereference in Go, is unreachable. -/
def Z.powRec : Nat → Int → Int → Option Int × Option Q × Option GoErr
  | 0, _, _ => (none, none, none)
  | fuel + 1, z, arg =>
    if 0 ≤ z ∧ 0 ≤ arg then
      (some ((N.Power z.toNat arg.toNat : Nat) : Int), none, none)
    else if 0 ≤ arg then
      (some (Z.powLoop z arg.toNat), none, none)
    else
      match Z.powRec fuel z (-arg) with
      | (some res, _, _) => Z.Divide 1 res
      | (none, _, _) => (none, none, none)

/-- `z.Power(arg)` — the sign-case recursion entered with enough fuel. -/
def Z.Power (z arg : Int) : Option Int × Option Q × Option GoErr :=
  Z.powRec 2 z arg

/-- `func (z *Z) DivideR(arg *Z) (*Z, *Z, error)` (z.go lines 251-279):
record the result/remainder signs, normalize the operands, delegate to
`N.DivideR`, then negate the remainder when the dividend was negative and
the quotient when the operand signs differ. -/
def Z.DivideR (z arg : Int) : Option Int × Option Int × Option GoErr :=
  let negres := (z < 0 ∧ 0 ≤ arg) ∨ (0 ≤ z ∧ arg < 0)
  let negrem := z < 0
  let a := if z < 0 then -z else z
  let b := if arg < 0 then -arg else arg
  match N.DivideR a.toNat b.toNat with
  | (some res, some rem, _) =>
    (some (if negres then -(res : Int) else (res : Int)),
     some (if negrem then -(rem : Int) else (rem : Int)), none)
  | (_, _, e) => (none, none, e)

/-- `func (z *Z) Root(*Z) (*Z, *Q)` (z.go lines 281-283):
`panic("implement me")`. -/
def Z.Root (_z _arg : Int) : GoResult (Option Int × Option Q) :=
  GoResult.crash "implement me"

/-- `func (z *Z) Logarithm(*Z) (*Z, *Q)` (z.go lines 285-287):
`panic("implement me")`. -/
def Z.Logarithm (_z _arg : Int) : GoResult (Option Int × Option Q) :=
  GoResult.crash "implement me"

-- ## The ℚ layer (q.go) and the parsers

/-- The Euclidean loop of `Q.GCD` (q.go lines 61-96):
`for { if r1 == 0 { gcd = 1 }; q, r, e := Z(r0).DivideR(Z(r1)); ... }`
with explicit fuel (`r1 + 1` is always sufficient, see `Q.gcdLoop_spec`).
`Sum.inl` is the gcd found on `r == 0`; `Sum.inr` is the error returned
when `DivideR` fails (which is what actually happens when `r1 == 0`: the
`gcd = 1` assignment is dead, the subsequent `DivideR` errors out). -/
def Q.gcdLoop : Nat → Int → Int → Option (Int ⊕ GoErr)
  | 0, _, _ => none
  | fuel + 1, r0, r1 =>
    match Z.DivideR r0 r1 with
    | (some _, some r, _) =>
      if r = 0 then some (Sum.inl r1) else Q.gcdLoop fuel r1 r
    | (_, _, e) => some (Sum.inr (e.getD GoErr.divideByZero))

/-- `func (q *Q) GCD() (*Q, error)` (q.go lines 61-96): compute the gcd of
the absolute values by the Euclidean algorithm, divide both components by
it (`az, _, _ := Z(q.a).Divide(gcdz)` — exact, so the ℤ result is never
`nil` and the `none` fallback, a nil dereference in Go, is unreachable),
and turn a double-negative pair into a double-positive one. -/
def Q.GCD (q : Q) : Option Q × Option GoErr :=
  let r0 := if q.a < 0 then -q.a else q.a
  let r1 := if q.b < 0 then -q.b else q.b
  match Q.gcdLoop (r1.toNat + 1) r0 r1 with
  | some (Sum.inl gcd) =>
    match (Z.Divide q.a gcd).1, (Z.Divide q.b gcd).1 with
    | some az, some bz =>
      if az < 0 ∧ bz < 0 then (some ⟨-az, -bz⟩, none)
      else (some ⟨az, bz⟩, none)
    | _, _ => (none, none)
  | some (Sum.inr e) => (none, some e)
  | none => (none, none)  -- fuel exhaustion: unreachable (Q.gcdLoop_spec)

/-- The numeric value of a list of decimal digit characters, most
significant first, as accumulated by `strconv.ParseUint` (base 10). -/
def digitsVal (ds : List Char) : Nat :=
  ds.foldl (fun acc c => acc * 10 + (c.toNat - 48)) 0

/-- `strconv.Atoi` (i.e. `strconv.ParseInt(s, 10, 64)`): first component is
the returned `int` value, second is whether no error occurred.  A
malformed string (empty, bare sign, or any non-digit) yields `(0, false)`;
a string whose value overflows `int64` yields the clamped bound and
`false` (Go's `ErrRange`); otherwise the parsed value and `true`. -/
def goAtoi (s : List Char) : Int × Bool :=
  match s with
  | [] => (0, false)
  | c :: rest =>
    let neg := c = '-'
    let ds := if c = '-' ∨ c = '+' then rest else c :: rest
    if ds = [] ∨ ¬ ds.all Char.isDigit then (0, false)
    else
      let un := digitsVal ds
      if ¬ neg ∧ 2 ^ 63 ≤ un then (2 ^ 63 - 1, false)
      else if neg ∧ 2 ^ 63 < un then (-(2 ^ 63 : Int), false)
      else ((if neg then -(un : Int) else (un : Int)), true)

/-- Whether a string is a syntactically valid decimal literal (optional
sign followed by at least one ASCII digit) — the condition under which
`strconv.Atoi` does not report a syntax error. -/
def isDecimalLiteral (s : List Char) : Bool :=
  match s with
  | [] => false
  | c :: rest =>
    let ds := if c = '-' ∨ c = '+' then rest else c :: rest
    !ds.isEmpty && ds.all Char.isDigit

/-- `func NewN(v string) *N` (q.go lines 445-452): parse with
`strconv.Atoi`, ignore the error, and `addOne` starting from `ZERO` once
per unit of the parsed value (no iterations when the value is ≤ 0). -/
def NewN (v : List Char) : Nat := N.addOneIter (goAtoi v).1.toNat 0

/-- `func NewZ(v string) *Z` (z.go lines 51-56): parse with
`strconv.Atoi`, ignore the error, and store the value directly. -/
def NewZ (v : List Char) : Int := (goAtoi v).1

-- ## Characterization of the ℤ layer

theorem Z.Multiply_mul (z arg : Int) : Z.Multiply z arg = z * arg := by
  unfold Z.Multiply
  split_ifs with h1 h2 h3
  · rw [N.Multiply_eq]
    push_cast
    rw [Int.toNat_of_nonneg h1.1, Int.toNat_of_nonneg h1.2]
  · rw [N.Multiply_eq]
    push_cast
    rw [Int.toNat_of_nonneg h2.1, Int.toNat_of_nonneg (by omega : (0:Int) ≤ -arg)]
    ring
  · rw [N.Multiply_eq]
    push_cast
    rw [Int.toNat_of_nonneg (by omega : (0:Int) ≤ -z), Int.toNat_of_nonneg h3.2]
    ring
  · rw [N.Multiply_eq]
    push_cast
    rw [Int.toNat_of_nonneg (by omega : (0:Int) ≤ -z),
      Int.toNat_of_nonneg (by omega : (0:Int) ≤ -arg)]
    ring

theorem Z.powLoop_eq (z : Int) (k : Nat) : Z.powLoop z k = z ^ k := by
  induction k with
  | zero => rfl
  | succ k ih => rw [Z.powLoop, Z.Multiply_mul, ih, pow_succ]

/-- The non-negative base case of `Z.Divide`: both operands already
non-negative, any non-zero fuel. -/
theorem Z.divideRec_nonneg (fuel : Nat) (a b : Int) (ha : 0 ≤ a) (hb : 0 < b) :
    Z.divideRec (fuel + 1) a b =
      if b ∣ a then (some ((a.toNat / b.toNat : Nat) : Int), none, none)
      else (none, some ⟨a, b⟩, none) := by
  have hbt : b.toNat ≠ 0 := by omega
  have hca : ((a.toNat : Int)) = a := Int.toNat_of_nonneg ha
  have hcb : ((b.toNat : Int)) = b := Int.toNat_of_nonneg (le_of_lt hb)
  have hdvd_iff : b.toNat ∣ a.toNat ↔ b ∣ a := by
    rw [← Int.natCast_dvd_natCast, hca, hcb]
  rw [Z.divideRec]
  rw [if_pos ⟨ha, le_of_lt hb⟩]
  by_cases hdvd : b ∣ a
  · rw [N.Divide_exact a.toNat b.toNat hbt (hdvd_iff.mpr hdvd), if_pos hdvd]
  · rw [N.Divide_inexact a.toNat b.toNat hbt (fun h => hdvd (hdvd_iff.mp h)),
      if_neg hdvd]
    simp [DefQ, hca, hcb]

/-- The exact value of the non-negative base case, as a multiple. -/
theorem Z.divideRec_nonneg_dvd (fuel : Nat) (a b : Int) (ha : 0 ≤ a)
    (hb : 0 < b) (hdvd : b ∣ a) :
    ∃ q, Z.divideRec (fuel + 1) a b = (some q, none, none) ∧ b * q = a := by
  refine ⟨((a.toNat / b.toNat : Nat) : Int), ?_, ?_⟩
  · rw [Z.divideRec_nonneg fuel a b ha hb, if_pos hdvd]
  · have hdn : b.toNat ∣ a.toNat := by
      rw [← Int.natCast_dvd_natCast, Int.toNat_of_nonneg ha,
        Int.toNat_of_nonneg (le_of_lt hb)] at *
      exact hdvd
    have := Nat.div_mul_cancel hdn
    calc b * ((a.toNat / b.toNat : Nat) : Int)
        = ((b.toNat : Nat) : Int) * ((a.toNat / b.toNat : Nat) : Int) := by
          rw [Int.toNat_of_nonneg (le_of_lt hb)]
      _ = ((b.toNat * (a.toNat / b.toNat) : Nat) : Int) := by push_cast; ring
      _ = ((a.toNat : Nat) : Int) := by
          rw [Nat.mul_comm, this]
      _ = a := Int.toNat_of_nonneg ha

/-- Full characterization of `Z.Divide` for a non-zero divisor: an exact
ℤ quotient `q` with `b * q = a` when `b ∣ a`, otherwise promotion to the
stored ℚ pair (sign moved onto the numerator, denominator `|b|`). -/
theorem Z.Divide_char (a b : Int) (hb : b ≠ 0) :
    (b ∣ a → ∃ q, Z.Divide a b = (some q, none, none) ∧ b * q = a) ∧
    (¬ b ∣ a → Z.Divide a b =
      (none, some ⟨if b < 0 then -a else a, (b.natAbs : Int)⟩, none)) := by
  unfold Z.Divide
  rcases le_or_lt 0 a with ha | ha <;> rcases lt_or_gt_of_ne hb with hbneg | hbpos
  · -- 0 ≤ a, b < 0: second branch, recurse on (a, -b)
    rw [Z.divideRec]
    rw [if_neg (by omega), if_pos ⟨ha, hbneg⟩]
    constructor
    · intro hdvd
      obtain ⟨q, hq, hmul⟩ := Z.divideRec_nonneg_dvd 0 a (-b) ha (by omega)
        ((Int.neg_dvd).mpr hdvd)
      rw [hq]
      exact ⟨-q, rfl, by rw [← hmul]; ring⟩
    · intro hdvd
      rw [Z.divideRec_nonneg 0 a (-b) ha (by omega),
        if_neg (fun h => hdvd ((Int.neg_dvd).mp h))]
      have hnb : (b.natAbs : Int) = -b := by omega
      rw [if_pos hbneg, hnb]
  · -- 0 ≤ a, 0 < b: first branch directly
    have h1 : (0:Nat) + 1 = 1 := rfl
    constructor
    · intro hdvd
      obtain ⟨q, hq, hmul⟩ := Z.divideRec_nonneg_dvd 1 a b ha hbpos hdvd
      exact ⟨q, hq, hmul⟩
    · intro hdvd
      rw [show (2:Nat) = 1 + 1 from rfl, Z.divideRec_nonneg 1 a b ha hbpos,
        if_neg hdvd]
      have : (b.natAbs : Int) = b := by omega
      rw [if_neg (by omega), this]
  · -- a < 0, b < 0: fourth branch, recurse on (-a, -b)
    rw [Z.divideRec]
    rw [if_neg (by omega), if_neg (by omega), if_neg (by omega)]
    constructor
    · intro hdvd
      obtain ⟨q, hq, hmul⟩ := Z.divideRec_nonneg_dvd 0 (-a) (-b) (by omega)
        (by omega) (by simpa using hdvd)
      rw [hq]
      exact ⟨q, rfl, by nlinarith [hmul]⟩
    · intro hdvd
      rw [Z.divideRec_nonneg 0 (-a) (-b) (by omega) (by omega),
        if_neg (by simpa using hdvd)]
      have hnb : (b.natAbs : Int) = -b := by omega
      rw [if_pos hbneg, hnb]
  · -- a < 0, 0 < b: third branch, recurse on (-a, b)
    rw [Z.divideRec]
    rw [if_neg (by omega), if_neg (by omega), if_pos ⟨ha, le_of_lt hbpos⟩]
    constructor
    · intro hdvd
      obtain ⟨q, hq, hmul⟩ := Z.divideRec_nonneg_dvd 0 (-a) b (by omega)
        hbpos ((Int.dvd_neg).mpr hdvd)
      rw [hq]
      exact ⟨-q, rfl, by rw [show b * -q = -(b * q) from by ring, hmul]; ring⟩
    · intro hdvd
      rw [Z.divideRec_nonneg 0 (-a) b (by omega) hbpos,
        if_neg (fun h => hdvd ((Int.dvd_neg).mp h))]
      have : (b.natAbs : Int) = b := by omega
      rw [if_neg (by omega), this]
      simp

/-- Closed form of `Z.DivideR` for a non-zero divisor: magnitudes are
divided in ℕ, the remainder is negated when the dividend is negative, the
quotient when the operand signs differ. -/
theorem Z.DivideR_eq (a b : Int) (hb : b ≠ 0) :
    Z.DivideR a b =
      (some (if (a < 0 ∧ 0 ≤ b) ∨ (0 ≤ a ∧ b < 0)
             then -((a.natAbs / b.natAbs : Nat) : Int)
             else ((a.natAbs / b.natAbs : Nat) : Int)),
       some (if a < 0 then -((a.natAbs % b.natAbs : Nat) : Int)
             else ((a.natAbs % b.natAbs : Nat) : Int)),
       none) := by
  have ha' : (if a < 0 then -a else a).toNat = a.natAbs := by
    split_ifs <;> omega
  have hb' : (if b < 0 then -b else b).toNat = b.natAbs := by
    split_ifs <;> omega
  simp only [Z.DivideR, ha', hb',
    N.DivideR_spec a.natAbs b.natAbs (by omega : b.natAbs ≠ 0)]

/-- `Z.DivideR` on non-negative operands is plain ℕ division. -/
theorem Z.DivideR_nonneg (a b : Int) (ha : 0 ≤ a) (hb : 0 < b) :
    Z.DivideR a b = (some ((a.natAbs / b.natAbs : Nat) : Int),
                     some ((a.natAbs % b.natAbs : Nat) : Int), none) := by
  rw [Z.DivideR_eq a b (by omega)]
  rw [if_neg (by omega), if_neg (by omega)]

-- ## Characterization of the ℚ layer


theorem Q.gcdLoop_spec (fuel : Nat) (r0 r1 : Int) (h0 : 0 ≤ r0) (h1 : 0 < r1)
    (hfuel : r1.toNat ≤ fuel) :
    Q.gcdLoop fuel r0 r1 =
      some (Sum.inl ((Nat.gcd r0.natAbs r1.natAbs : Nat) : Int)) := by
  induction fuel generalizing r0 r1 with
  | zero => omega
  | succ fuel ih =>
    rw [Q.gcdLoop, Z.DivideR_nonneg r0 r1 h0 h1]
    by_cases hmod : r0.natAbs % r1.natAbs = 0
    · have hdvd : r1.natAbs ∣ r0.natAbs := Nat.dvd_of_mod_eq_zero hmod
      have hgcd : Nat.gcd r0.natAbs r1.natAbs = r1.natAbs := by
        rw [Nat.gcd_comm, Nat.gcd_eq_left hdvd]
      have hr1' : (r1.natAbs : Int) = r1 := by omega
      simp [hmod, hgcd, hr1']
    · have hmlt : r0.natAbs % r1.natAbs < r1.natAbs := Nat.mod_lt _ (by omega)
      have hne : ((r0.natAbs % r1.natAbs : Nat) : Int) ≠ 0 := by
        exact_mod_cast hmod
      have hrec := ih r1 ((r0.natAbs % r1.natAbs : Nat) : Int) (by omega)
        (by omega) (by omega)
      have hgcd2 : Nat.gcd r1.natAbs ((r0.natAbs % r1.natAbs : Nat) : Int).natAbs
          = Nat.gcd r0.natAbs r1.natAbs := by
        rw [Int.natAbs_ofNat]
        rw [Nat.gcd_comm r1.natAbs _, ← Nat.gcd_rec r1.natAbs r0.natAbs]
        exact Nat.gcd_comm _ _
      rw [hgcd2] at hrec
      show (if ((r0.natAbs % r1.natAbs : Nat) : Int) = 0
            then some (Sum.inl r1)
            else Q.gcdLoop fuel r1 ((r0.natAbs % r1.natAbs : Nat) : Int))
          = some (Sum.inl ((Nat.gcd r0.natAbs r1.natAbs : Nat) : Int))
      rw [if_neg hne, hrec]

/-- The main computation inside `Q.GCD`: with a non-zero denominator the
Euclidean loop returns `gcd(|a|, |b|)`, both components are divided by it
exactly, and the double-negative normalization is applied. -/
theorem Q.GCD_main (a b : Int) (hb : b ≠ 0) :
    ∃ az bz : Int,
      ((Int.gcd a b : Nat) : Int) * az = a ∧
      ((Int.gcd a b : Nat) : Int) * bz = b ∧
      Q.GCD ⟨a, b⟩ =
        (if az < 0 ∧ bz < 0 then (some ⟨-az, -bz⟩, none)
         else (some ⟨az, bz⟩, none)) := by
  have hr0 : (if (a : Int) < 0 then -a else a) = (a.natAbs : Int) := by
    split_ifs <;> omega
  have hr1 : (if (b : Int) < 0 then -b else b) = (b.natAbs : Int) := by
    split_ifs <;> omega
  have hg : Nat.gcd a.natAbs b.natAbs = Int.gcd a b := rfl
  have hgpos : 0 < Int.gcd a b := Int.gcd_pos_iff.mpr (Or.inr hb)
  have hgz : ((Int.gcd a b : Nat) : Int) ≠ 0 := by
    simp only [ne_eq, Int.natCast_eq_zero]
    omega
  obtain ⟨az, haz, hazmul⟩ :=
    (Z.Divide_char a ((Int.gcd a b : Nat) : Int) hgz).1 (@Int.gcd_dvd_left a b)
  obtain ⟨bz, hbz, hbzmul⟩ :=
    (Z.Divide_char b ((Int.gcd a b : Nat) : Int) hgz).1 (@Int.gcd_dvd_right a b)
  refine ⟨az, bz, hazmul, hbzmul, ?_⟩
  simp only [Q.GCD, hr0, hr1, Int.toNat_natCast]
  rw [Q.gcdLoop_spec (b.natAbs + 1) (a.natAbs : Int) (b.natAbs : Int)
    (by omega) (by omega) (by rw [Int.toNat_natCast]; omega)]
  simp only [Int.natAbs_ofNat, hg]
  rw [haz, hbz]

/-- A coprime, sign-normalized pair is a fixed point of `Q.GCD`. -/
theorem Q.GCD_coprime_fixed (x y : Int) (hgcd : Int.gcd x y = 1) (hy : y ≠ 0)
    (hneg : ¬ (x < 0 ∧ y < 0)) : Q.GCD ⟨x, y⟩ = (some ⟨x, y⟩, none) := by
  obtain ⟨az, bz, hA, hB, hQ⟩ := Q.GCD_main x y hy
  rw [hgcd] at hA hB
  rw [Nat.cast_one, one_mul] at hA hB
  rw [hA, hB] at hQ
  rw [hQ, if_neg hneg]

/-- Full characterization of `Q.GCD` for a non-zero denominator: the
result is a coprime pair representing the same rational, with no
double-negative sign, a double-negative input normalized to positive, and
reduction idempotent. -/
theorem Q.GCD_char (a b : Int) (hb : b ≠ 0) :
    ∃ a1 b1 : Int,
      Q.GCD ⟨a, b⟩ = (some ⟨a1, b1⟩, none) ∧
      Int.gcd a1 b1 = 1 ∧
      b1 ≠ 0 ∧
      a1 * b = b1 * a ∧
      ¬ (a1 < 0 ∧ b1 < 0) ∧
      (a < 0 ∧ b < 0 → 0 < a1 ∧ 0 < b1) ∧
      Q.GCD ⟨a1, b1⟩ = (some ⟨a1, b1⟩, none) := by
  obtain ⟨az, bz, hA, hB, hQ⟩ := Q.GCD_main a b hb
  have hgpos : 0 < Int.gcd a b := Int.gcd_pos_iff.mpr (Or.inr hb)
  have hgposZ : (0 : Int) < ((Int.gcd a b : Nat) : Int) := by
    exact_mod_cast hgpos
  have hAn : a.natAbs = Int.gcd a b * az.natAbs := by
    have h := congrArg Int.natAbs hA
    rw [Int.natAbs_mul, Int.natAbs_ofNat] at h
    omega
  have hBn : b.natAbs = Int.gcd a b * bz.natAbs := by
    have h := congrArg Int.natAbs hB
    rw [Int.natAbs_mul, Int.natAbs_ofNat] at h
    omega
  have hco : Nat.gcd az.natAbs bz.natAbs = 1 := by
    have h1 : Int.gcd a b = Nat.gcd a.natAbs b.natAbs := rfl
    rw [hAn, hBn, Nat.gcd_mul_left] at h1
    have h2 : Int.gcd a b * 1 = Int.gcd a b * Nat.gcd az.natAbs bz.natAbs := by
      rw [Nat.mul_one]
      exact h1
    exact (Nat.eq_of_mul_eq_mul_left hgpos h2).symm
  have hbz0 : bz ≠ 0 := by
    intro h
    rw [h, mul_zero] at hB
    exact hb hB.symm
  have hcross : az * b = bz * a := by
    have h := mul_comm az bz
    have h2 : az * (((Int.gcd a b : Nat) : Int) * bz)
        = bz * (((Int.gcd a b : Nat) : Int) * az) := by ring
    rw [hA, hB] at h2
    exact h2
  have hsa : az < 0 ↔ a < 0 := by
    constructor
    · intro h
      rw [← hA]
      exact mul_neg_of_pos_of_neg hgposZ h
    · intro h
      by_contra hc
      have : 0 ≤ a := by
        rw [← hA]
        exact mul_nonneg (le_of_lt hgposZ) (by omega)
      omega
  have hsb : bz < 0 ↔ b < 0 := by
    constructor
    · intro h
      rw [← hB]
      exact mul_neg_of_pos_of_neg hgposZ h
    · intro h
      by_contra hc
      have : 0 ≤ b := by
        rw [← hB]
        exact mul_nonneg (le_of_lt hgposZ) (by omega)
      omega
  have hgcdzz : Int.gcd az bz = 1 := hco
  by_cases hneg : az < 0 ∧ bz < 0
  · refine ⟨-az, -bz, by rw [hQ, if_pos hneg], ?_, by omega, ?_, ?_, ?_, ?_⟩
    · rw [Int.neg_gcd, Int.gcd_neg]
      exact hgcdzz
    · rw [neg_mul, neg_mul, hcross]
    · intro h
      omega
    · intro _
      omega
    · exact Q.GCD_coprime_fixed (-az) (-bz)
        (by rw [Int.neg_gcd, Int.gcd_neg]; exact hgcdzz) (by omega) (by omega)
  · refine ⟨az, bz, by rw [hQ, if_neg hneg], hgcdzz, hbz0, hcross, hneg, ?_, ?_⟩
    · intro h
      exact absurd ⟨hsa.mpr h.1, hsb.mpr h.2⟩ hneg
    · exact Q.GCD_coprime_fixed az bz hgcdzz hbz0 hneg

theorem Z.powRec_nonneg (fuel : Nat) (z arg : Int) (harg : 0 ≤ arg) :
    Z.powRec (fuel + 1) z arg = (some (z ^ arg.toNat), none, none) := by
  rw [Z.powRec]
  by_cases hz : 0 ≤ z
  · rw [if_pos ⟨hz, harg⟩, N.Power_eq]
    have hc : ((z.toNat ^ arg.toNat : Nat) : Int) = z ^ arg.toNat := by
      push_cast
      rw [Int.toNat_of_nonneg hz]
    rw [hc]
  · rw [if_neg (fun h => hz h.1), if_pos harg, Z.powLoop_eq]

theorem Z.Power_nonneg (z arg : Int) (harg : 0 ≤ arg) :
    Z.Power z arg = (some (z ^ arg.toNat), none, none) := by
  unfold Z.Power
  rw [show (2 : Nat) = 1 + 1 from rfl, Z.powRec_nonneg 1 z arg harg]

theorem Z.Power_neg (z arg : Int) (harg : arg < 0) :
    Z.Power z arg = Z.Divide 1 (z ^ arg.natAbs) := by
  unfold Z.Power
  rw [show (2 : Nat) = 1 + 1 from rfl, Z.powRec]
  rw [if_neg (fun h => by omega), if_neg (by omega : ¬ (0 : Int) ≤ arg)]
  rw [Z.powRec_nonneg 0 z (-arg) (by omega)]
  have hn : (-arg).toNat = arg.natAbs := by omega
  rw [hn]

-- ## Characterization of the parsers

theorem goAtoi_invalid (s : List Char) (h : isDecimalLiteral s = false) :
    goAtoi s = (0, false) := by
  cases s with
  | nil => rfl
  | cons c rest =>
    simp only [isDecimalLiteral] at h
    simp only [goAtoi]
    by_cases hnil : (if c = '-' ∨ c = '+' then rest else c :: rest) = []
    · rw [if_pos (Or.inl hnil)]
    · by_cases hall : (if c = '-' ∨ c = '+' then rest else c :: rest).all Char.isDigit
      · exfalso
        have h1 : (if c = '-' ∨ c = '+' then rest else c :: rest).isEmpty = false := by
          cases hds : (if c = '-' ∨ c = '+' then rest else c :: rest) with
          | nil => exact absurd hds hnil
          | cons _ _ => rfl
        rw [h1] at h
        rw [hall] at h
        simp at h
      · rw [if_pos (Or.inr hall)]

-- ## The claims

/-- C1: Subtract promotion law for ℕ — for all naturals `a`, `b`,
`a.Subtract(b)` returns an exact ℕ result `x` (and no ℤ result) iff
`a ≥ b`, and then `b + x = a`; otherwise it returns no ℕ result and a
promoted ℤ value `v` with `b + v = a` over ℤ (so `v` represents
`a - b`, and is negative). -/
theorem C1_subtract_promotion (a b : Nat) :
    (b ≤ a → ∃ x, N.Subtract a b = (some x, none) ∧ b + x = a) ∧
    (a < b → ∃ v : Int, N.Subtract a b = (none, some v) ∧
      (b : Int) + v = (a : Int) ∧ v < 0) := by
  constructor
  · intro h
    exact ⟨a - b, N.Subtract_le a b h, by omega⟩
  · intro h
    exact ⟨(a : Int) - (b : Int), N.Subtract_lt a b h, by omega, by omega⟩

/-- Witness for C1 at `a = 5, b = 3` (exact) and `a = 2, b = 3`
(promotion). -/
theorem C1_subtract_promotion_witness :
    (∃ x, N.Subtract 5 3 = (some x, none) ∧ 3 + x = 5) ∧
    (∃ v : Int, N.Subtract 2 3 = (none, some v) ∧
      ((3 : Nat) : Int) + v = ((2 : Nat) : Int) ∧ v < 0) :=
  ⟨(C1_subtract_promotion 5 3).1 (by omega),
   (C1_subtract_promotion 2 3).2 (by omega)⟩

/-- C5 counterexample: at the concrete input `(0, 0)` neither `Z.Root`
nor `Z.Logarithm` returns a result value — both panic, contradicting the
claim that the `Unimplemented` error is delivered as an explicit result
value and never as a process-terminating fault. -/
theorem C5_root_log_counterexample :
    GoResult.isRet (Z.Root 0 0) = false ∧
    GoResult.isRet (Z.Logarithm 0 0) = false := by
  exact ⟨rfl, rfl⟩

/-- C5 (amended): for every pair of ℤ operands, calling `Root` or
`Logarithm` on ℤ unconditionally terminates with `panic("implement me")`
— a process-terminating fault — and never returns a result value. -/
theorem C5_root_log_amended (a b : Int) :
    Z.Root a b = GoResult.crash "implement me" ∧
    Z.Logarithm a b = GoResult.crash "implement me" :=
  ⟨rfl, rfl⟩

/-- C6: for every `a`, ℕ division and ℕ division-with-remainder by zero
return the `DivideByZero` error as an explicit result value, with no ℕ or
ℚ result present (the functions return normally, they do not panic). -/
theorem C6_divide_by_zero_error (a : Nat) :
    N.Divide a 0 = (none, none, some GoErr.divideByZero) ∧
    N.DivideR a 0 = (none, none, some GoErr.divideByZero) :=
  ⟨N.Divide_zero a, N.DivideR_zero a⟩

/-- C8: agreement of the two ℕ division operations — for `b ≠ 0`,
`DivideR` returns quotient `q` with remainder `0` exactly when `Divide`
returns the exact quotient `q`. -/
theorem C8_divide_agreement (a b q : Nat) (hb : b ≠ 0) :
    ((N.DivideR a b).1 = some q ∧ (N.DivideR a b).2.1 = some 0) ↔
      N.Divide a b = (some q, none, none) := by
  rw [N.DivideR_spec a b hb]
  constructor
  · rintro ⟨h1, h2⟩
    have hq : a / b = q := by simpa using h1
    have hm : a % b = 0 := by simpa using h2
    have hdvd : b ∣ a := Nat.dvd_of_mod_eq_zero hm
    rw [N.Divide_exact a b hb hdvd, hq]
  · intro h
    by_cases hdvd : b ∣ a
    · rw [N.Divide_exact a b hb hdvd] at h
      have hq : a / b = q := by
        have h1 := congrArg Prod.fst h
        simpa using h1
      have hm : a % b = 0 := Nat.dvd_iff_mod_eq_zero.mp hdvd
      rw [hq, hm]
      exact ⟨rfl, rfl⟩
    · rw [N.Divide_inexact a b hb hdvd] at h
      simp at h

/-- Witness for C8 at `a = 6, b = 3, q = 2`. -/
theorem C8_divide_agreement_witness :
    ((N.DivideR 6 3).1 = some 2 ∧ (N.DivideR 6 3).2.1 = some 0) ↔
      N.Divide 6 3 = (some 2, none, none) :=
  C8_divide_agreement 6 3 2 (by omega)

/-- C9: any input string that is not a syntactically valid decimal
literal is parsed by `strconv.Atoi` with value `0`, so the ℕ constructor
`NewN` and the ℤ constructor `NewZ` silently return the zero value of
their type (their signatures report no error). -/
theorem C9_parse_default_zero (s : List Char)
    (h : isDecimalLiteral s = false) : NewN s = 0 ∧ NewZ s = 0 := by
  rw [NewN, NewZ, goAtoi_invalid s h]
  exact ⟨rfl, rfl⟩

/-- Witness for C9 at the malformed input `"12a"`. -/
theorem C9_parse_default_zero_witness :
    isDecimalLiteral (['1', '2', 'a']) = false ∧
    NewN (['1', '2', 'a']) = 0 ∧ NewZ (['1', '2', 'a']) = 0 :=
  ⟨by decide, (C9_parse_default_zero (['1', '2', 'a']) (by decide)).1,
   (C9_parse_default_zero (['1', '2', 'a']) (by decide)).2⟩

/-- C10: ℤ power with base 0 and a negative exponent computes
`1 / 0^|b| = 1 / 0` and therefore returns the `DivideByZero` error, with
neither an exact ℤ nor a promoted ℚ result. -/
theorem C10_zero_base_neg_power (b : Int) (hb : b < 0) :
    Z.Power 0 b = (none, none, some GoErr.divideByZero) := by
  rw [Z.Power_neg 0 b hb]
  have h1 : (0 : Int) ^ b.natAbs = 0 := by
    apply zero_pow
    omega
  rw [h1]
  rfl

/-- Witness for C10 at `b = -1`. -/
theorem C10_zero_base_neg_power_witness :
    Z.Power 0 (-1) = (none, none, some GoErr.divideByZero) :=
  C10_zero_base_neg_power (-1) (by omega)

/-- C7: ℤ power with a negative exponent is computed as `1 / a^|b|`: the
result equals `Divide` of 1 by the (loop-computed) power; when that
division is exact (i.e. `a^|b|` divides 1) the result is an exact ℤ value
`z` with `a^|b| * z = 1`, and when it is inexact (and the power is not
zero) the result is a promoted ℚ value; in particular `1^-1` is the exact
ℤ value 1 and `2^-1` is the ℚ value `1/2`. -/
theorem C7_neg_power :
    (∀ a b : Int, b < 0 →
      Z.Power a b = Z.Divide 1 (a ^ b.natAbs) ∧
      (a ^ b.natAbs ∣ 1 →
        ∃ z, Z.Power a b = (some z, none, none) ∧ a ^ b.natAbs * z = 1) ∧
      (a ^ b.natAbs ≠ 0 → ¬ a ^ b.natAbs ∣ 1 →
        ∃ qq, Z.Power a b = (none, some qq, none))) ∧
    Z.Power 1 (-1) = (some 1, none, none) ∧
    Z.Power 2 (-1) = (none, some ⟨1, 2⟩, none) := by
  refine ⟨?_, by decide, by decide⟩
  intro a b hb
  have hP := Z.Power_neg a b hb
  refine ⟨hP, ?_, ?_⟩
  · intro hdvd
    have hne : a ^ b.natAbs ≠ 0 := by
      intro h0
      rw [h0] at hdvd
      exact absurd hdvd (by norm_num)
    obtain ⟨q, hq, hmul⟩ := (Z.Divide_char 1 (a ^ b.natAbs) hne).1 hdvd
    exact ⟨q, by rw [hP, hq], hmul⟩
  · intro hne hdvd
    have h2 := (Z.Divide_char 1 (a ^ b.natAbs) hne).2 hdvd
    exact ⟨_, by rw [hP, h2]⟩

/-- Witness for C7: `1^-1` divides exactly, `2^-1` promotes. -/
theorem C7_neg_power_witness :
    (∃ z, Z.Power 1 (-1) = (some z, none, none) ∧
      (1 : Int) ^ ((-1 : Int)).natAbs * z = 1) ∧
    (∃ qq, Z.Power 2 (-1) = (none, some qq, none)) :=
  ⟨(C7_neg_power.1 1 (-1) (by omega)).2.1 (by decide),
   (C7_neg_power.1 2 (-1) (by omega)).2.2 (by decide) (by decide)⟩

/-- C2 counterexample: at `a = 12, b = 16`, `divide` promotes and the
returned ℚ stores exactly the pair `(12, 16)`, whose gcd is 4 — the
promoted value is not in lowest terms as returned, and its reduction
`(3, 4)` no longer has numerator 12 and denominator 16.  This refutes
the claim that the promoted `p/q` is in lowest terms with `p = a` and
`q = b`. -/
theorem C2_divide_totality_counterexample :
    N.Divide 12 16 = (none, some ⟨12, 16⟩, none) ∧
    Int.gcd 12 16 ≠ 1 ∧
    Q.GCD ⟨12, 16⟩ = (some ⟨3, 4⟩, none) :=
  ⟨by decide, by decide, by decide⟩

/-- C2 (amended): for every `a` and `b ≠ 0`, `divide(a,b)` returns
exactly one of two outcomes, never both: an exact quotient `q` with
`b*q = a` (precisely when `b ∣ a`), or a promoted ℚ value that stores the
pair `(a, b)` as-is in ℕ (sign-adjusted numerator and `|b|` denominator
in ℤ); the promoted pair is in lowest terms only after GCD reduction,
which produces a coprime pair representing the same rational `a/b`. -/
theorem C2_divide_totality_amended :
    (∀ a b : Nat, b ≠ 0 →
      (b ∣ a → N.Divide a b = (some (a / b), none, none) ∧ b * (a / b) = a) ∧
      (¬ b ∣ a → N.Divide a b = (none, some ⟨(a : Int), (b : Int)⟩, none) ∧
        ∃ p q : Int, Q.GCD ⟨(a : Int), (b : Int)⟩ = (some ⟨p, q⟩, none) ∧
          Int.gcd p q = 1 ∧ p * (b : Int) = q * (a : Int))) ∧
    (∀ a b : Int, b ≠ 0 →
      (b ∣ a → ∃ z, Z.Divide a b = (some z, none, none) ∧ b * z = a) ∧
      (¬ b ∣ a → Z.Divide a b =
        (none, some ⟨if b < 0 then -a else a, (b.natAbs : Int)⟩, none))) := by
  constructor
  · intro a b hb
    constructor
    · intro hdvd
      exact ⟨N.Divide_exact a b hb hdvd, Nat.mul_div_cancel' hdvd⟩
    · intro hdvd
      refine ⟨N.Divide_inexact a b hb hdvd, ?_⟩
      obtain ⟨p, q, hred, hco, _, hcross, _, _, _⟩ :=
        Q.GCD_char (a : Int) (b : Int) (by exact_mod_cast hb)
      exact ⟨p, q, hred, hco, hcross⟩
  · intro a b hb
    exact Z.Divide_char a b hb

/-- Witness for C2 (amended): exact at `140/10`, promoted at `12/16`,
and an exact signed case `-4/2`. -/
theorem C2_divide_totality_witness :
    (N.Divide 140 10 = (some (140 / 10), none, none) ∧
      10 * (140 / 10) = 140) ∧
    (N.Divide 12 16 = (none, some ⟨((12 : Nat) : Int), ((16 : Nat) : Int)⟩, none) ∧
      ∃ p q : Int,
        Q.GCD ⟨((12 : Nat) : Int), ((16 : Nat) : Int)⟩ = (some ⟨p, q⟩, none) ∧
        Int.gcd p q = 1 ∧ p * ((16 : Nat) : Int) = q * ((12 : Nat) : Int)) ∧
    (∃ z, Z.Divide (-4) 2 = (some z, none, none) ∧ 2 * z = -4) :=
  ⟨(C2_divide_totality_amended.1 140 10 (by omega)).1 (by decide),
   (C2_divide_totality_amended.1 12 16 (by omega)).2 (by decide),
   (C2_divide_totality_amended.2 (-4) 2 (by omega)).1 (by decide)⟩

/-- C4: GCD reduction — for every ℚ value with a non-zero denominator,
reduction succeeds, the reduced pair is coprime
(`gcd(|numerator|, |denominator|) = 1`), reducing again is the identity
(idempotence), and a double-negative pair is normalized to a
double-positive pair. -/
theorem C4_gcd_reduction (q : Q) (hq : q.b ≠ 0) :
    ∃ q1 : Q, Q.GCD q = (some q1, none) ∧
      Int.gcd q1.a q1.b = 1 ∧
      Q.GCD q1 = (some q1, none) ∧
      (q.a < 0 ∧ q.b < 0 → 0 < q1.a ∧ 0 < q1.b) := by
  obtain ⟨a, b⟩ := q
  obtain ⟨a1, b1, h1, h2, _, _, _, h6, h7⟩ := Q.GCD_char a b hq
  exact ⟨⟨a1, b1⟩, h1, h2, h7, h6⟩

/-- Witness for C4 at `56/8` (reduces to `7/1`) and at the
double-negative pair `(-3, -6)` (normalizes to positive). -/
theorem C4_gcd_reduction_witness :
    (∃ q1 : Q, Q.GCD ⟨56, 8⟩ = (some q1, none) ∧
      Int.gcd q1.a q1.b = 1 ∧ Q.GCD q1 = (some q1, none) ∧
      ((56 : Int) < 0 ∧ (8 : Int) < 0 → 0 < q1.a ∧ 0 < q1.b)) ∧
    (∃ q1 : Q, Q.GCD ⟨-3, -6⟩ = (some q1, none) ∧
      Int.gcd q1.a q1.b = 1 ∧ Q.GCD q1 = (some q1, none) ∧
      ((-3 : Int) < 0 ∧ (-6 : Int) < 0 → 0 < q1.a ∧ 0 < q1.b)) :=
  ⟨C4_gcd_reduction ⟨56, 8⟩ (by decide), C4_gcd_reduction ⟨-3, -6⟩ (by decide)⟩

/-- C3: remainder law — for every `a` and `b ≠ 0`,
`divideWithRemainder(a,b)` returns `(q, r)` with `a = q*b + r` and
`0 ≤ |r| < |b|` (in ℕ simply `r < b`); in ℤ the remainder takes the sign
of the dividend (truncating-toward-dividend convention) and the
quotient's sign is the product (XOR) of the operand signs. -/
theorem C3_remainder_law :
    (∀ a b : Nat, b ≠ 0 → ∃ q r, N.DivideR a b = (some q, some r, none) ∧
      a = q * b + r ∧ r < b) ∧
    (∀ a b : Int, b ≠ 0 → ∃ q r, Z.DivideR a b = (some q, some r, none) ∧
      a = q * b + r ∧ r.natAbs < b.natAbs ∧
      (r = 0 ∨ r.sign = a.sign) ∧
      (q = 0 ∨ q.sign = a.sign * b.sign)) := by
  constructor
  · intro a b hb
    refine ⟨a / b, a % b, N.DivideR_spec a b hb, ?_, Nat.mod_lt a (by omega)⟩
    have h := Nat.div_add_mod a b
    rw [Nat.mul_comm (a / b) b]
    omega
  · intro a b hb
    rw [Z.DivideR_eq a b hb]
    set A := a.natAbs with hAdef
    set B := b.natAbs with hBdef
    have hBpos : 0 < B := by omega
    have hDM : A = A / B * B + A % B := by
      have h := Nat.div_add_mod A B
      rw [Nat.mul_comm (A / B) B]
      omega
    have hML : A % B < B := Nat.mod_lt _ hBpos
    have hz : ((A : Nat) : Int)
        = ((A / B : Nat) : Int) * ((B : Nat) : Int) + ((A % B : Nat) : Int) := by
      exact_mod_cast hDM
    refine ⟨_, _, rfl, ?_, ?_, ?_, ?_⟩
    · -- a = q * b + r
      rcases le_or_lt 0 a with ha | ha <;> rcases lt_or_gt_of_ne hb with hbn | hbp
      · rw [if_pos (by omega : (a < 0 ∧ 0 ≤ b) ∨ (0 ≤ a ∧ b < 0)),
          if_neg (by omega : ¬ a < 0)]
        have ha2 : a = ((A : Nat) : Int) := by omega
        have hb2 : b = -((B : Nat) : Int) := by omega
        rw [ha2, hb2, neg_mul_neg]
        exact hz
      · rw [if_neg (by omega : ¬ ((a < 0 ∧ 0 ≤ b) ∨ (0 ≤ a ∧ b < 0))),
          if_neg (by omega : ¬ a < 0)]
        have ha2 : a = ((A : Nat) : Int) := by omega
        have hb2 : b = ((B : Nat) : Int) := by omega
        rw [ha2, hb2]
        exact hz
      · rw [if_neg (by omega : ¬ ((a < 0 ∧ 0 ≤ b) ∨ (0 ≤ a ∧ b < 0))),
          if_pos (by omega : a < 0)]
        have ha2 : a = -((A : Nat) : Int) := by omega
        have hb2 : b = -((B : Nat) : Int) := by omega
        rw [ha2, hb2, mul_neg]
        omega
      · rw [if_pos (by omega : (a < 0 ∧ 0 ≤ b) ∨ (0 ≤ a ∧ b < 0)),
          if_pos (by omega : a < 0)]
        have ha2 : a = -((A : Nat) : Int) := by omega
        have hb2 : b = ((B : Nat) : Int) := by omega
        rw [ha2, hb2, neg_mul]
        omega
    · -- |r| < |b|
      rcases lt_or_le a 0 with ha | ha
      · rw [if_pos ha]
        omega
      · rw [if_neg (by omega : ¬ a < 0)]
        omega
    · -- r = 0 or r has the sign of the dividend
      rcases lt_or_le a 0 with ha | ha
      · rw [if_pos ha]
        by_cases hr : A % B = 0
        · left
          rw [hr]
          simp
        · right
          have hrpos : (0 : Int) < ((A % B : Nat) : Int) := by
            exact_mod_cast Nat.pos_of_ne_zero hr
          rw [Int.sign_eq_neg_one_iff_neg.mpr
              (by omega : -((A % B : Nat) : Int) < 0),
            Int.sign_eq_neg_one_iff_neg.mpr ha]
      · rw [if_neg (by omega : ¬ a < 0)]
        by_cases hr : A % B = 0
        · left
          rw [hr]
          simp
        · right
          have hrpos : (0 : Int) < ((A % B : Nat) : Int) := by
            exact_mod_cast Nat.pos_of_ne_zero hr
          have hA0 : A ≠ 0 := by
            intro h
            rw [h] at hr
            exact hr (Nat.zero_mod B)
          have hapos : 0 < a := by omega
          rw [Int.sign_eq_one_iff_pos.mpr hrpos,
            Int.sign_eq_one_iff_pos.mpr hapos]
    · -- q = 0 or q has the XOR sign of the operands
      rcases le_or_lt 0 a with ha | ha <;> rcases lt_or_gt_of_ne hb with hbn | hbp
      · rw [if_pos (by omega : (a < 0 ∧ 0 ≤ b) ∨ (0 ≤ a ∧ b < 0))]
        by_cases hq : A / B = 0
        · left
          rw [hq]
          simp
        · right
          have hqpos : (0 : Int) < ((A / B : Nat) : Int) := by
            exact_mod_cast Nat.pos_of_ne_zero hq
          have hA0 : A ≠ 0 := by
            intro h
            exact hq (by rw [h]; exact Nat.zero_div B)
          have hapos : 0 < a := by omega
          rw [Int.sign_neg, Int.sign_eq_one_iff_pos.mpr hqpos,
            Int.sign_eq_one_iff_pos.mpr hapos,
            Int.sign_eq_neg_one_iff_neg.mpr hbn]
          norm_num
      · rw [if_neg (by omega : ¬ ((a < 0 ∧ 0 ≤ b) ∨ (0 ≤ a ∧ b < 0)))]
        by_cases hq : A / B = 0
        · left
          rw [hq]
          simp
        · right
          have hqpos : (0 : Int) < ((A / B : Nat) : Int) := by
            exact_mod_cast Nat.pos_of_ne_zero hq
          have hA0 : A ≠ 0 := by
            intro h
            exact hq (by rw [h]; exact Nat.zero_div B)
          have hapos : 0 < a := by omega
          rw [Int.sign_eq_one_iff_pos.mpr hqpos,
            Int.sign_eq_one_iff_pos.mpr hapos,
            Int.sign_eq_one_iff_pos.mpr hbp]
          norm_num
      · rw [if_neg (by omega : ¬ ((a < 0 ∧ 0 ≤ b) ∨ (0 ≤ a ∧ b < 0)))]
        by_cases hq : A / B = 0
        · left
          rw [hq]
          simp
        · right
          have hqpos : (0 : Int) < ((A / B : Nat) : Int) := by
            exact_mod_cast Nat.pos_of_ne_zero hq
          rw [Int.sign_eq_one_iff_pos.mpr hqpos,
            Int.sign_eq_neg_one_iff_neg.mpr ha,
            Int.sign_eq_neg_one_iff_neg.mpr hbn]
          norm_num
      · rw [if_pos (by omega : (a < 0 ∧ 0 ≤ b) ∨ (0 ≤ a ∧ b < 0))]
        by_cases hq : A / B = 0
        · left
          rw [hq]
          simp
        · right
          have hqpos : (0 : Int) < ((A / B : Nat) : Int) := by
            exact_mod_cast Nat.pos_of_ne_zero hq
          rw [Int.sign_neg, Int.sign_eq_one_iff_pos.mpr hqpos,
            Int.sign_eq_neg_one_iff_neg.mpr ha,
            Int.sign_eq_one_iff_pos.mpr hbp]
          norm_num

/-- Witness for C3 at `7 / 3` in ℕ and `-7 / 3` in ℤ. -/
theorem C3_remainder_law_witness :
    (∃ q r, N.DivideR 7 3 = (some q, some r, none) ∧ 7 = q * 3 + r ∧ r < 3) ∧
    (∃ q r, Z.DivideR (-7) 3 = (some q, some r, none) ∧
      (-7 : Int) = q * 3 + r ∧ r.natAbs < (3 : Int).natAbs ∧
      (r = 0 ∨ r.sign = (-7 : Int).sign) ∧
      (q = 0 ∨ q.sign = (-7 : Int).sign * (3 : Int).sign)) :=
  ⟨C3_remainder_law.1 7 3 (by omega), C3_remainder_law.2 (-7) 3 (by omega)⟩
